import Mathlib

set_option maxHeartbeats 1000000

/-!
Verification development for the `earth` library: an equal-area isolatitude
pixelation of a sphere, plate-tectonic Euler rotations, reconstruction
models and spherical distributions.  Each Go function under scrutiny is
translated into a Lean definition (a shallow embedding); floating-point
quantities are modelled by exact rationals (or reals where trigonometry is
involved), Go maps by association lists, and Go panics by `Option`/`Except`.
-/

/-- Exact model of Go `math.Round`: round half away from zero. -/
def goRound (x : ℚ) : ℤ :=
  if x < 0 then -⌊-x + 1/2⌋ else ⌊x + 1/2⌋

/-- Association-list lookup, modelling a read `m[k]` of a Go map
(`none` when the key is absent). -/
def alookup {α β : Type} [DecidableEq α] : List (α × β) → α → Option β
  | [], _ => none
  | (k, v) :: t, key => if key = k then some v else alookup t key

/-- Association-list update, modelling a write `m[k] = v` of a Go map. -/
def aupdate {α β : Type} [DecidableEq α] : List (α × β) → α → β → List (α × β)
  | [], k, v => [(k, v)]
  | (k', v') :: t, k, v => if k = k' then (k, v) :: t else (k', v') :: aupdate t k v

/-- Association-list removal, modelling `delete(m, k)` of a Go map. -/
def aerase {α β : Type} [DecidableEq α] : List (α × β) → α → List (α × β)
  | [], _ => []
  | (k', v') :: t, k => if k = k' then t else (k', v') :: aerase t k

/-! ## Polygon rasterizer: hemisphere choice (vector/pixels.go) -/

/-- Direct translation of `hemisphere(north, south float64) bool` from
vector/pixels.go.  The result is `true` for a projection centred on the
north pole and `false` for one centred on the south pole. -/
def hemisphere (north south : ℚ) : Bool :=
  if south = -90 then false
  else if north = 90 then true
  else if north < 0 then false
  else if south > 0 then true
  else decide (north < |south|)

/-- Modelled from the spec: the hemisphere-selection rule as written in the
specification (north iff S = −90, or (N ≠ 90 and N ≥ 0 and S ≥ 0), or
\|N\| ≥ \|S\|), used to compare the spec sentence with the source. -/
def specHemisphereNorth (north south : ℚ) : Bool :=
  decide (south = -90) ||
    (decide (north ≠ 90) && (decide (0 ≤ north) && decide (0 ≤ south))) ||
    decide (|south| ≤ |north|)

/-! ## ClosestStageAge (model/timepix.go, Total, StageRot)

The three methods `TimePix.ClosestStageAge`, `Total.ClosesStageAge` and
`StageRot.ClosestStageAge` share the same body: binary-search the sorted
stage list `st`; on a hit return the queried age, on a miss return
`st[i-1]` where `i` is the insertion position.  `slices.BinarySearch` on a
sorted list returns the smallest index whose element is `≥` the target
(the insertion position) together with a hit flag. -/

/-- Insertion position computed by `slices.BinarySearch` on a sorted list:
the first index whose entry is `≥` the target (the list length when there
is none). -/
def binSearchPos (st : List ℤ) (target : ℤ) : ℕ :=
  st.findIdx (fun x => decide (target ≤ x))

/-- Hit flag of `slices.BinarySearch`: whether the entry at the insertion
position exists and equals the target. -/
def binSearchFound (st : List ℤ) (target : ℤ) : Bool :=
  match st.get? (binSearchPos st target) with
  | some v => v == target
  | none => false

/-- Common body of `TimePix.ClosestStageAge`, `Total.ClosesStageAge` and
`StageRot.ClosestStageAge`: on a binary-search miss the code reads
`st[i-1]`, which panics (modelled as `none`) when the insertion position
`i` is 0. -/
def closestStageAge (st : List ℤ) (age : ℤ) : Option ℤ :=
  if binSearchFound st age then some age
  else if binSearchPos st age = 0 then none
  else st.get? (binSearchPos st age - 1)

/-! ## TimePix (model/timepix.go)

A `TimePix` maps a stage age to a sparse pixel-id → value map.  Go maps
are modelled by association lists; the pixel-id bound of the underlying
pixelation is kept as `pixLen`. -/

structure TimePixM where
  pixLen : ℕ
  stages : List (ℤ × List (ℤ × ℤ))
deriving DecidableEq

/-- Model of `TimePix.At(age, pixel)`: when the stage is undefined return
`(0, false)`; when the stage exists return the map read (Go's zero
default) together with `true` — regardless of whether the pixel itself was
ever set. -/
def tpAt (tp : TimePixM) (age pixel : ℤ) : ℤ × Bool :=
  match alookup tp.stages age with
  | none => (0, false)
  | some vals => ((alookup vals pixel).getD 0, true)

/-- Model of `TimePix.Set(age, pixel, value)`: panics (modelled by `none`) exactly
when `pixel ≥ pix.Len()`; otherwise stores the value, creating the stage
map when it does not exist yet. -/
def tpSet (tp : TimePixM) (age pixel value : ℤ) : Option TimePixM :=
  if (tp.pixLen : ℤ) ≤ pixel then none
  else
    some { tp with
           stages := aupdate tp.stages age
             (aupdate ((alookup tp.stages age).getD []) pixel value) }

/-- Model of `TimePix.Del(age, pixel)`: returns with no change when
`pixel ≥ pix.Len()` or when the stage is undefined; otherwise removes the
pixel entry.  It is total (never panics). -/
def tpDel (tp : TimePixM) (age pixel : ℤ) : TimePixM :=
  if (tp.pixLen : ℤ) ≤ pixel then tp
  else
    match alookup tp.stages age with
    | none => tp
    | some vals => { tp with stages := aupdate tp.stages age (aerase vals pixel) }

/-! ## Recons (model/model.go)

An editable reconstruction model: plate → (present pixel → (age →
stage-pixel list)).  `Recons.Add` merges a batch of locations into the
model; an out-of-range present pixel is a panic (modelled by `none`). -/

/-- Sort used to model `slices.Sort` on pixel-id slices. -/
def sortInts (l : List ℤ) : List ℤ :=
  List.insertionSort (fun a b => a ≤ b) l

/-- The used-set loop of `Recons.Add`: append each incoming stage pixel
that is in neither the existing list nor already appended. -/
def appendNew (rot stPix : List ℤ) : List ℤ :=
  stPix.foldl (fun acc id => if id ∈ acc then acc else acc ++ [id]) rot

/-- Per-pixel merge of `Recons.Add`: union the incoming stage pixels into
the existing list, then sort ascending. -/
def mergePix (rot stPix : List ℤ) : List ℤ :=
  sortInts (appendNew rot stPix)

/-- Plate content: present pixel → (age → stage-pixel list). -/
def PlateRec : Type :=
  List (ℤ × List (ℤ × List ℤ))

structure ReconsM where
  pixLen : ℕ
  plates : List (ℤ × PlateRec)

/-- One `Recons.Add(plate, locations, age)` call; `locations` is the Go
map from present pixel to incoming stage pixels. -/
structure AddOp where
  plate : ℤ
  locations : List (ℤ × List ℤ)
  age : ℤ

/-- Stage-pixel list stored in a plate record for a (present pixel, age)
pair (Go's nil default when absent). -/
def plLookup (pl : PlateRec) (pixel age : ℤ) : List ℤ :=
  (alookup ((alookup pl pixel).getD []) age).getD []

/-- Stage-pixel list stored in a model for a (plate, pixel, age) triple. -/
def reconsLookup (rec : ReconsM) (plate pixel age : ℤ) : List ℤ :=
  plLookup ((alookup rec.plates plate).getD []) pixel age

/-- Merge of one `locations` entry into a plate record (the body of the
`for pixel, stPix := range locations` loop of `Recons.Add`). -/
def addLoc (pl : PlateRec) (pixel : ℤ) (stPix : List ℤ) (age : ℤ) : PlateRec :=
  let px := (alookup pl pixel).getD []
  let rot := (alookup px age).getD []
  aupdate pl pixel (aupdate px age (mergePix rot stPix))

/-- Model of `Recons.Add`: panics (modelled by `none`) when some present pixel id
reaches the pixelation length; otherwise merges every location into the
plate record, creating the plate when absent. -/
def reconsAdd (rec : ReconsM) (op : AddOp) : Option ReconsM :=
  if op.locations.any (fun l => decide ((rec.pixLen : ℤ) ≤ l.1)) then none
  else
    some { rec with
           plates := aupdate rec.plates op.plate
             (op.locations.foldl (fun acc l => addLoc acc l.1 l.2 op.age)
               ((alookup rec.plates op.plate).getD [])) }

/-- A sequence of `Recons.Add` calls (aborting at the first panic). -/
def applyAdds (rec : ReconsM) : List AddOp → Option ReconsM
  | [] => some rec
  | op :: t =>
    match reconsAdd rec op with
    | none => none
    | some rec2 => applyAdds rec2 t

/-- All stage pixels supplied by one `Add` call for a given
(plate, present pixel, age) triple. -/
def suppliedOf (op : AddOp) (plate pixel age : ℤ) : List ℤ :=
  if op.plate = plate ∧ op.age = age then
    ((op.locations.filter (fun l => l.1 = pixel)).map (fun l => l.2)).flatten
  else []

/-- All stage pixels supplied by a sequence of `Add` calls for a given
(plate, present pixel, age) triple. -/
def suppliedFor (ops : List AddOp) (plate pixel age : ℤ) : List ℤ :=
  (ops.map (fun op => suppliedOf op plate pixel age)).flatten

/-- Invariant: every stored stage-pixel list of a plate record is strictly
ascending (hence duplicate free). -/
def plInv (pl : PlateRec) : Prop :=
  ∀ pixel age, (plLookup pl pixel age).Pairwise (· < ·)

/-- Invariant: every stored stage-pixel list of a model is strictly
ascending (hence duplicate free). -/
def recInv (rec : ReconsM) : Prop :=
  ∀ plate pixel age, (reconsLookup rec plate pixel age).Pairwise (· < ·)

/-! ## DistMat (distmat.go)

The upper-triangular ring-distance matrix.  The great-circle distance
`Distance(p, q)` (an `acos` of a dot product, hence symmetric and lying in
[0, π]) is abstracted as a symmetric parameter `d`; the stored entry is
`math.Round(d / ToRad(step))`, kept as an integer (by the equator guard
and d ≤ π every stored value lies in [0, 255], so the Go `uint8`
conversion is the identity there). -/

/-- Size of a triangular matrix (`sizeMatrix` in distmat.go). -/
def sizeMatrix (d : ℕ) : ℕ :=
  (d + 1) * d / 2

/-- Quantized ring distance stored by `NewDistMat`:
`math.Round(dist / ToRad(pix.Step()))` with the ring step in the same
angular unit as `dist`. -/
def ringDist (d rStep : ℚ) : ℤ :=
  goRound (d / rStep)

/-- The flattened upper-triangular store filled by the double loop of
`NewDistMat`: rows px1 = 0..len−1, inner px2 = 0..px1, entry at
`sizeMatrix px1 + px2`. -/
def distMatBuild (len : ℕ) (f : ℕ → ℕ → ℤ) : List ℤ :=
  (List.range len).flatMap (fun i => (List.range (i + 1)).map (fun j => f i j))

/-- Model of `NewDistMat`: refuses the construction when `Equator()/2 > 255`,
otherwise builds the triangular store. -/
def newDistMat (eq len : ℕ) (f : ℕ → ℕ → ℤ) : Option (List ℤ) :=
  if 255 < eq / 2 then none
  else some (distMatBuild len f)

/-- Model of `DistMat.At`: swap the indices so the row index is the larger, then
read slot `sizeMatrix x + y`. -/
def distMatAt (m : List ℤ) (x y : ℕ) : ℤ :=
  if y > x then (m.get? (sizeMatrix y + x)).getD 0
  else (m.get? (sizeMatrix x + y)).getD 0

/-! ## Spherical normal (dist/normal.go)

`NewNormal` computes, per ring distance i, `logP = -λ·(i·step)²/2`,
`pRing = exp(logP + log(perRing[i]))`, accumulates `sum` and the running
`cdf`, and finally divides `ring` and `cdf` by `sum`.  The transcendental
`math.Exp` and `math.Log` are abstracted as parameters `e` and `lg`; in
exact arithmetic the only property the claim needs is that the
exponential is strictly positive, which is a hypothesis of the theorem
(true of the real exponential for every λ). -/

/-- Unnormalized per-ring masses `exp(logPDF[i] + log(perRing[i]))` of
`NewNormal`, one entry per ring. -/
def rawRing (e : ℚ → ℚ) (lg : ℕ → ℚ) (lambda rStep : ℚ) (perRing : List ℕ) : List ℚ :=
  (List.range perRing.length).map (fun (i : ℕ) =>
    e (-(lambda * ((i : ℚ) * rStep) * ((i : ℚ) * rStep) / 2) + lg (perRing.getD i 0)))

/-- Running prefix sums (the unnormalized `cdf` accumulation loop). -/
def prefixSums (l : List ℚ) : List ℚ :=
  (List.range l.length).map (fun i => (l.take (i + 1)).sum)

/-- The normalized `ring` array of `NewNormal`: each raw mass divided by
the total. -/
def newNormalRing (e : ℚ → ℚ) (lg : ℕ → ℚ) (lambda rStep : ℚ)
    (perRing : List ℕ) : List ℚ :=
  (rawRing e lg lambda rStep perRing).map
    (fun x => x / (rawRing e lg lambda rStep perRing).sum)

/-- The normalized `cdf` array of `NewNormal`. -/
def newNormalCdf (e : ℚ → ℚ) (lg : ℕ → ℚ) (lambda rStep : ℚ)
    (perRing : List ℕ) : List ℚ :=
  (prefixSums (rawRing e lg lambda rStep perRing)).map
    (fun x => x / (rawRing e lg lambda rStep perRing).sum)

/-- Model of `Normal.CDF(dist)`: round `dist/step` to a ring index; indices at or
beyond the number of rings return 1; a negative index would panic
(modelled by `none`). -/
def normalCDF (cdf : List ℚ) (rStep dist : ℚ) : Option ℚ :=
  if (cdf.length : ℤ) ≤ goRound (dist / rStep) then some 1
  else if goRound (dist / rStep) < 0 then none
  else cdf.get? (goRound (dist / rStep)).toNat

/-! ## Rotation table ingestion (rotation/rotation.go)

`Read` tokenizes each line into at least six fields, skips the comment
plate 999, validates the pole coordinates, converts the time to years,
drops duplicated (time, fix) rows per plate, and then normalizes each
plate list: sort by time, prepend a zero-time identity rotation when the
earliest time is positive, delete "wrong jump" rows whose fix agrees with
neither temporal neighbour, and swap equal-time pairs whose order does
not match the preceding fix.

Rows are modelled already tokenized with parsed numeric fields (the
lexical layer is Go's strconv); times are already converted to years
(`int64(t_Myr · 10⁶)`).  The Euler pole is kept as the degree pair handed
to `earth.NewPoint` and the angle as the degree value handed to
`earth.ToRad`; `Read` only ever inspects the time and fix fields, so this
changes no control flow. -/

structure RotRow where
  plate : ℤ
  t : ℤ
  lat : ℚ
  lon : ℚ
  ang : ℚ
  fix : ℤ
deriving DecidableEq

structure Euler where
  T : ℤ
  poleLat : ℚ
  poleLon : ℚ
  angleDeg : ℚ
  fix : ℤ
deriving DecidableEq

def dummyEuler : Euler :=
  ⟨0, 0, 0, 0, 0⟩

instance : Inhabited Euler :=
  ⟨dummyEuler⟩

def eulerOfRow (r : RotRow) : Euler :=
  ⟨r.t, r.lat, r.lon, r.ang, r.fix⟩

/-- The coordinate validation of `Read` exactly as written in the source
(rotation.go lines 122 and 132): the latitude range check followed by the
longitude range check, which reads the latitude variable. -/
def rowBadRange (r : RotRow) : Bool :=
  (decide (r.lat < -90) || decide (90 < r.lat)) ||
    (decide (r.lat < -180) || decide (180 < r.lat))

/-- Modelled from the spec: the validation as the specification states it,
checking the longitude column against [−180, 180]. -/
def specRowBadRange (r : RotRow) : Bool :=
  (decide (r.lat < -90) || decide (90 < r.lat)) ||
    (decide (r.lon < -180) || decide (180 < r.lon))

/-- Duplicate-row elimination: append a parsed row unless an entry with
the same (time, fix) pair is already present. -/
def parsedAppend (acc : List Euler) (r : RotRow) : List Euler :=
  if acc.any (fun e => decide (e.T = r.t) && decide (e.fix = r.fix)) then acc
  else acc ++ [eulerOfRow r]

def parsedRotsAux (p : ℤ) : List RotRow → List Euler → List Euler
  | [], acc => acc
  | r :: rs, acc =>
    if r.plate = p then parsedRotsAux p rs (parsedAppend acc r)
    else parsedRotsAux p rs acc

/-- The rotation list accumulated for plate `p` while reading `rows`
(file order, duplicates dropped). -/
def parsedRots (rows : List RotRow) (p : ℤ) : List Euler :=
  parsedRotsAux p rows []

def platesOfAux : List RotRow → List ℤ → List ℤ
  | [], acc => acc
  | r :: rs, acc =>
    if r.plate = 999 ∨ r.plate ∈ acc then platesOfAux rs acc
    else platesOfAux rs (acc ++ [r.plate])

/-- The plates created while reading `rows` (order of first appearance;
plate 999 is a comment and never created). -/
def platesOf (rows : List RotRow) : List ℤ :=
  platesOfAux rows []

instance eulerLeTotal : IsTotal Euler (fun a b => a.T ≤ b.T) :=
  ⟨fun a b => le_total a.T b.T⟩

instance eulerLeTrans : IsTrans Euler (fun a b => a.T ≤ b.T) :=
  ⟨fun _ _ _ h1 h2 => le_trans h1 h2⟩

/-- The `slices.SortFunc(p.rot, cmp.Compare on T)` step.  Go's sort is
unstable, so the order of equal-time entries is unspecified there; the
model fixes insertion sort, and no conclusion below depends on the order
of equal-time entries. -/
def sortEuler (l : List Euler) : List Euler :=
  List.insertionSort (fun a b => a.T ≤ b.T) l

/-- The zero-time identity rotation (`Euler{E: earth.NorthPole, Fix: f}`:
time 0, north pole, angle 0). -/
def zeroEuler (f : ℤ) : Euler :=
  ⟨0, 90, 0, 0, f⟩

/-- Prepend the zero-time identity when the earliest time is positive
(`if p.rot[0].T > 0`).  A created plate always has at least one rotation,
so the empty case never arises in `Read`. -/
def withZero (l : List Euler) : List Euler :=
  match l with
  | [] => []
  | e :: t => if 0 < e.T then zeroEuler e.fix :: e :: t else e :: t

/-- The downward neighbour-fix scan of the wrong-jump pass: from index
`x` down to 0, the fix of the first entry whose time differs from
`tVal`, or −1. -/
def scanPrev (l : List Euler) (tVal : ℤ) : ℕ → ℤ
  | 0 => if (l.getD 0 dummyEuler).T ≠ tVal then (l.getD 0 dummyEuler).fix else -1
  | x + 1 =>
    if (l.getD (x + 1) dummyEuler).T ≠ tVal then (l.getD (x + 1) dummyEuler).fix
    else scanPrev l tVal x

/-- The upward neighbour-fix scan of the wrong-jump pass: from index `x`
up to the end, the fix of the first entry whose time differs from
`tVal`, or −1. -/
def scanPost (l : List Euler) (tVal : ℤ) (x : ℕ) : ℤ :=
  if h : x < l.length then
    if (l.getD x dummyEuler).T ≠ tVal then (l.getD x dummyEuler).fix
    else scanPost l tVal (x + 1)
  else -1
termination_by l.length - x

/-- The "remove wrong jumps" pass of `Read`: a `for` loop whose body may
delete the current index (the loop index still advances, and the length
is re-read each iteration). -/
def removeJumpsFrom (l : List Euler) (i : ℕ) : List Euler :=
  if h : i < l.length then
    if i = 0 then removeJumpsFrom l (i + 1)
    else if i + 1 = l.length then removeJumpsFrom l (i + 1)
    else if (l.getD (i + 1) dummyEuler).T ≠ (l.getD i dummyEuler).T ∧
        (l.getD (i - 1) dummyEuler).T ≠ (l.getD i dummyEuler).T then
      removeJumpsFrom l (i + 1)
    else if scanPrev l (l.getD i dummyEuler).T i = (l.getD i dummyEuler).fix then
      removeJumpsFrom l (i + 1)
    else if scanPost l (l.getD i dummyEuler).T i = (l.getD i dummyEuler).fix then
      removeJumpsFrom l (i + 1)
    else removeJumpsFrom (l.eraseIdx i) (i + 1)
  else l
termination_by l.length - i
decreasing_by
  all_goals
    (try rw [List.length_eraseIdx])
    (try rw [if_pos h])
    omega

/-- Swap of the adjacent entries at positions `i` and `i+1` (the
`p.rot[i], p.rot[j] = p.rot[j], p.rot[i]` assignment with `j = i+1`). -/
def swapAdj : List Euler → ℕ → List Euler
  | l, 0 =>
    match l with
    | a :: b :: t => b :: a :: t
    | l => l
  | [], _ + 1 => []
  | a :: t, n + 1 => a :: swapAdj t n

/-- The plate-jump reordering pass of `Read`: swap equal-time neighbours
whose order does not match the fix of the preceding entry. -/
def swapPass (l : List Euler) (i : ℕ) : List Euler :=
  if h : i < l.length then
    if i = 0 then swapPass l (i + 1)
    else if i + 1 = l.length then swapPass l (i + 1)
    else if (l.getD (i + 1) dummyEuler).T ≠ (l.getD i dummyEuler).T then
      swapPass l (i + 1)
    else if (l.getD (i - 1) dummyEuler).fix ≠ (l.getD i dummyEuler).fix then
      swapPass (swapAdj l i) (i + 1)
    else swapPass l (i + 1)
  else l
termination_by l.length - i
decreasing_by
  all_goals
    have hlen : ∀ (m : List Euler) (k : ℕ), (swapAdj m k).length = m.length := by
      intro m k
      induction m generalizing k with
      | nil => cases k <;> rfl
      | cons a t ih =>
        cases k with
        | zero =>
          cases t with
          | nil => rfl
          | cons b t' => rfl
        | succ n => simp [swapAdj, ih]
    (try rw [hlen])
    omega

/-- Per-plate normalization of `Read`: sort by time, add the zero-time
identity if needed, remove wrong jumps, reorder plate jumps. -/
def normalizePlate (l : List Euler) : List Euler :=
  swapPass (removeJumpsFrom (withZero (sortEuler l)) 0) 0

/-- Model of `rotation.Read`: fails with the index of the first row (plate 999
skipped) whose coordinate validation fires; otherwise returns every
created plate with its normalized rotation list. -/
def readRotation (rows : List RotRow) : Except ℕ (List (ℤ × List Euler)) :=
  let bad := rows.findIdx (fun r => decide (r.plate ≠ 999) && rowBadRange r)
  if bad < rows.length then Except.error bad
  else Except.ok ((platesOf rows).map (fun p => (p, normalizePlate (parsedRots rows p))))

/-- Two Euler entries differ as rows: different time or different fix. -/
def distinctTF (a b : Euler) : Prop :=
  a.T ≠ b.T ∨ a.fix ≠ b.fix

/-! ## Geographic points and the pixel lookup (earth.go, pixelation.go)

`NewPoint(lat, lon)` converts degrees to radians and *stores the radians*
in the `lat`/`lon` fields, so the `Latitude`/`Longitude` accessors return
radians.  `Pixelation.Pixel(lat, lon)` expects degrees: `getPixel`
computes the tentative ring as `round((90 − lat)/dStep)` with `lat` in
degrees and searches rings r−1..r+2 from there.  These definitions are
over ℝ (the trigonometry is transcendental). -/

/-- Model of `earth.ToRad`. -/
noncomputable def toRad (x : ℝ) : ℝ :=
  x * Real.pi / 180

/-- Model of `math.Round` on reals: round half away from zero. -/
noncomputable def goRoundR (x : ℝ) : ℤ :=
  if x < 0 then -⌊-x + 1/2⌋ else ⌊x + 1/2⌋

structure PointR where
  lat : ℝ
  lon : ℝ
  vec : ℝ × ℝ × ℝ

/-- Model of `earth.NewPoint`: note that the radian values are assigned to the
`lat`/`lon` fields. -/
noncomputable def newPoint (lat lon : ℝ) : PointR :=
  { lat := toRad lat
    lon := toRad lon
    vec := (Real.cos (toRad lat) * Real.cos (toRad lon),
      Real.cos (toRad lat) * Real.sin (toRad lon),
      Real.sin (toRad lat)) }

/-- Model of `Point.Latitude`: returns the stored `lat` field. -/
def latitude (p : PointR) : ℝ :=
  p.lat

/-- The tentative ring computed by `Pixelation.getPixel`:
`int(math.Round((90 − lat) / pix.dStep))`; `closest` then scans only the
rings r−1 .. r+2 around it. -/
noncomputable def tentativeRing (dStep lat : ℝ) : ℤ :=
  goRoundR ((90 - lat) / dStep)

/-! ## Theorems -/

theorem alookup_aupdate_self {α β : Type} [DecidableEq α]
    (l : List (α × β)) (k : α) (v : β) : alookup (aupdate l k v) k = some v := by
  induction l with
  | nil => simp [aupdate, alookup]
  | cons h t ih =>
    obtain ⟨k', v'⟩ := h
    by_cases hk : k = k'
    · simp [aupdate, alookup, hk]
    · simp [aupdate, alookup, hk, ih]

theorem alookup_aupdate_ne {α β : Type} [DecidableEq α]
    (l : List (α × β)) (k k₀ : α) (v : β) (hne : k₀ ≠ k) :
    alookup (aupdate l k v) k₀ = alookup l k₀ := by
  induction l with
  | nil => simp [aupdate, alookup, hne]
  | cons h t ih =>
    obtain ⟨k', v'⟩ := h
    by_cases hk : k = k'
    · subst hk
      simp [aupdate, alookup, hne]
    · by_cases hk0 : k₀ = k'
      · simp [aupdate, alookup, hk, hk0]
      · simp [aupdate, alookup, hk, hk0, ih]

/-- C5 counterexample: for the polygon bounds N = 0, S = −90 the spec rule
chooses the northern projection while the source `hemisphere` chooses the
southern one (and for N = 50, S = −10 they disagree in the other
direction). -/
theorem c5_hemisphere_counterexample :
    specHemisphereNorth 0 (-90) = true ∧ hemisphere 0 (-90) = false ∧
      specHemisphereNorth 50 (-10) = true ∧ hemisphere 50 (-10) = false := by
  refine ⟨by decide, ?_, by decide, ?_⟩ <;> rfl

/-- C5 (amended): the projection hemisphere is north exactly when
S ≠ −90 and (N = 90, or N ≥ 0 and (S > 0 or N < \|S\|)); otherwise it is
south. -/
theorem c5_hemisphere (north south : ℚ) :
    hemisphere north south = true ↔
      south ≠ -90 ∧ (north = 90 ∨ (0 ≤ north ∧ (0 < south ∨ north < |south|))) := by
  unfold hemisphere
  split_ifs with h1 h2 h3 h4
  · refine iff_of_false (by simp) ?_
    rintro ⟨hc, -⟩
    exact hc h1
  · exact iff_of_true rfl ⟨h1, Or.inl h2⟩
  · refine iff_of_false (by simp) ?_
    rintro ⟨-, h | ⟨h0, -⟩⟩
    · exact h2 h
    · exact absurd h3 (not_lt.mpr h0)
  · exact iff_of_true rfl ⟨h1, Or.inr ⟨not_lt.mp h3, Or.inl h4⟩⟩
  · simp only [decide_eq_true_eq]
    constructor
    · intro h
      exact ⟨h1, Or.inr ⟨not_lt.mp h3, Or.inr h⟩⟩
    · rintro ⟨-, h | ⟨-, h | h⟩⟩
      · exact absurd h h2
      · exact absurd h h4
      · exact h

theorem closestStageAge_nil (age : ℤ) : closestStageAge [] age = none := rfl

theorem closestStageAge_cons_lt (a : ℤ) (t : List ℤ) (age : ℤ) (h : age < a) :
    closestStageAge (a :: t) age = none := by
  have hpos : binSearchPos (a :: t) age = 0 := by
    simp [binSearchPos, List.findIdx_cons, le_of_lt h]
  have hfound : binSearchFound (a :: t) age = false := by
    simp only [binSearchFound, hpos, List.get?_cons_zero]
    simp [beq_iff_eq]
    omega
  simp [closestStageAge, hfound, hpos]

theorem closestStageAge_cons_self (a : ℤ) (t : List ℤ) :
    closestStageAge (a :: t) a = some a := by
  have hpos : binSearchPos (a :: t) a = 0 := by
    simp [binSearchPos, List.findIdx_cons]
  have hfound : binSearchFound (a :: t) a = true := by
    simp [binSearchFound, hpos]
  simp [closestStageAge, hfound]

theorem closestStageAge_cons_gt (a : ℤ) (t : List ℤ) (age : ℤ) (h : a < age) :
    closestStageAge (a :: t) age = (closestStageAge t age).or (some a) := by
  have hstep : binSearchPos (a :: t) age = binSearchPos t age + 1 := by
    simp [binSearchPos, List.findIdx_cons, not_le.mpr h]
  have hfound : binSearchFound (a :: t) age = binSearchFound t age := by
    simp only [binSearchFound, hstep, List.get?_cons_succ]
  by_cases hf : binSearchFound t age = true
  · have ht : closestStageAge t age = some age := by
      simp [closestStageAge, hf]
    simp [closestStageAge, hfound, hf, ht, Option.or]
  · have hne : binSearchFound t age = false := by simpa using hf
    have hne' : binSearchFound (a :: t) age = false := hfound.trans hne
    rcases hi : binSearchPos t age with _ | n
    · have ht0 : closestStageAge t age = none := by
        simp [closestStageAge, hne, hi]
      have hL : closestStageAge (a :: t) age = some a := by
        simp [closestStageAge, hne', hstep, hi]
      rw [hL, ht0]
      rfl
    · have hlen : binSearchPos t age ≤ t.length := by
        unfold binSearchPos
        apply List.findIdx_le_length
      have hlt : n < t.length := by omega
      have ht : closestStageAge t age = t.get? n := by
        simp [closestStageAge, hne, hi]
      obtain ⟨v, hv⟩ : ∃ v, t.get? n = some v := ⟨t.get ⟨n, hlt⟩, List.get?_eq_get hlt⟩
      have hL : closestStageAge (a :: t) age = t.get? n := by
        simp [closestStageAge, hne', hstep, hi, List.get?_cons_succ]
      rw [hL, ht, hv]
      rfl

/-- C3 counterexample: with the sorted stage list [10, 20] a query at 15
returns stage 10 (the stage *below* the query), not 20 (the first stage
`≥` the query as the claim states); and a query at 5, below the first
stage, aborts (index −1 panic, modelled by `none`) instead of returning
the first stage. -/
theorem c3_closest_stage_counterexample :
    closestStageAge [10, 20] 15 = some 10 ∧ some (10 : ℤ) ≠ some (20 : ℤ) ∧
      closestStageAge [10, 20] 5 = none := by
  refine ⟨rfl, by decide, rfl⟩

/-- C3 (amended): on a strictly sorted non-empty stage list,
`closestStageAge` returns the queried age when it is itself a stage; when
the query lies strictly below the first stage it aborts (index −1); and
otherwise it returns the largest stage strictly below the query (hence the
last stage whenever the query exceeds every stage).  It never returns the
first stage `≥` the query unless that stage equals the query. -/
theorem c3_closest_stage (st : List ℤ) (age : ℤ) (hs : List.Sorted (· < ·) st) :
    (age ∈ st → closestStageAge st age = some age) ∧
    (∀ h, st.head? = some h → age < h → closestStageAge st age = none) ∧
    ((∃ s ∈ st, s < age) → age ∉ st →
      ∃ m, closestStageAge st age = some m ∧ m ∈ st ∧ m < age ∧
        ∀ s ∈ st, s < age → s ≤ m) := by
  induction st with
  | nil =>
    refine ⟨by simp, ?_, by simp⟩
    intro h hh
    simp at hh
  | cons a t ih =>
    have ih' := ih (List.Sorted.of_cons hs)
    refine ⟨?_, ?_, ?_⟩
    · intro hmem
      rcases List.mem_cons.mp hmem with heq | hmem
      · subst heq
        exact closestStageAge_cons_self _ t
      · have ha : a < age := (List.sorted_cons.mp hs).1 age hmem
        rw [closestStageAge_cons_gt a t age ha, ih'.1 hmem]
        rfl
    · intro h hh hlt
      have hah : a = h := by simpa using hh
      subst hah
      exact closestStageAge_cons_lt a t age hlt
    · rintro ⟨s, hsmem, hslt⟩ hnot
      have ha : a < age := by
        rcases List.mem_cons.mp hsmem with heq | hmem
        · exact heq ▸ hslt
        · exact lt_trans ((List.sorted_cons.mp hs).1 s hmem) hslt
      rw [closestStageAge_cons_gt a t age ha]
      by_cases hex : ∃ s ∈ t, s < age
      · have hnot' : age ∉ t := fun hm => hnot (List.mem_cons_of_mem a hm)
        obtain ⟨m, hm1, hm2, hm3, hm4⟩ := ih'.2.2 hex hnot'
        refine ⟨m, ?_, List.mem_cons_of_mem a hm2, hm3, ?_⟩
        · simp [hm1, Option.or]
        · intro s' hs' hlt'
          rcases List.mem_cons.mp hs' with heq | hmem
          · exact heq ▸ le_of_lt ((List.sorted_cons.mp hs).1 m hm2)
          · exact hm4 s' hmem hlt'
      · push_neg at hex
        have hnone : closestStageAge t age = none := by
          rcases t with _ | ⟨b, t'⟩
          · rfl
          · have hb1 : age ≤ b := hex b (List.mem_cons_self b t')
            have hb2 : age ≠ b := fun hEq =>
              hnot (List.mem_cons_of_mem a (List.mem_cons.mpr (Or.inl hEq)))
            exact closestStageAge_cons_lt b t' age (lt_of_le_of_ne hb1 hb2)
        refine ⟨a, ?_, List.mem_cons_self a t, ha, ?_⟩
        · simp [hnone, Option.or]
        · intro s' hs' hlt'
          rcases List.mem_cons.mp hs' with heq | hmem
          · exact le_of_eq heq
          · exact absurd hlt' (not_lt.mpr (hex s' hmem))

/-- C3 witness: the amended theorem applied to the concrete stage list
[10, 20] at queries 10 (a hit), 5 (abort) and 25 (above every stage). -/
theorem c3_closest_stage_witness :
    closestStageAge [10, 20] 10 = some 10 ∧
      closestStageAge [10, 20] 5 = none ∧
      (closestStageAge [10, 20] 25).isSome = true := by
  have hs : List.Sorted (· < ·) [(10 : ℤ), 20] := by decide
  refine ⟨(c3_closest_stage [10, 20] 10 hs).1 (by decide),
    (c3_closest_stage [10, 20] 5 hs).2.1 10 rfl (by decide), ?_⟩
  obtain ⟨m, hm, -⟩ :=
    (c3_closest_stage [10, 20] 25 hs).2.2 ⟨10, by decide, by decide⟩ (by decide)
  rw [hm]
  rfl

/-- C4 counterexample: on a pixelation of 2 pixels, set only pixel 1 at
stage 100; reading the never-set pixel 0 at the defined stage 100 yields
the exists flag `true` (with value 0), while the claim demands `false` for
a pixel that was never set. -/
theorem c4_at_counterexample :
    (tpSet ⟨2, []⟩ 100 1 5).map (fun tp => tpAt tp 100 0) = some (0, true) ∧
      some ((0 : ℤ), true) ≠ some ((0 : ℤ), false) := by
  exact ⟨rfl, by decide⟩

/-- C4 (amended): the exists flag of `TimePix.At` distinguishes stages,
not pixels: a fresh `TimePix` reads `(0, false)` at every age, and once
any pixel is set at a stage, every pixel of that stage reads with flag
`true` — the never-set ones with the default value 0, the set one with its
stored value. -/
theorem c4_at_stage_level :
    (∀ (n : ℕ) (age pixel : ℤ), tpAt ⟨n, []⟩ age pixel = (0, false)) ∧
    (∀ (tp tp' : TimePixM) (age px v pixel : ℤ), tpSet tp age px v = some tp' →
      (tpAt tp' age pixel).2 = true) ∧
    (∀ (tp tp' : TimePixM) (age px v : ℤ), tpSet tp age px v = some tp' →
      tpAt tp' age px = (v, true)) := by
  refine ⟨fun n age pixel => rfl, ?_, ?_⟩
  · intro tp tp' age px v pixel hset
    unfold tpSet at hset
    split_ifs at hset with hle
    obtain rfl : _ = tp' := Option.some_injective _ hset
    simp [tpAt, alookup_aupdate_self]
  · intro tp tp' age px v hset
    unfold tpSet at hset
    split_ifs at hset with hle
    obtain rfl : _ = tp' := Option.some_injective _ hset
    simp [tpAt, alookup_aupdate_self]

/-- C4 witness: the stage-level flag theorem applied to a concrete
`TimePix` of 2 pixels with pixel 1 set to 5 at stage 100. -/
theorem c4_at_stage_level_witness :
    tpAt ⟨2, []⟩ 100 0 = (0, false) ∧
      (tpAt ⟨2, [(100, [(1, 5)])]⟩ 100 0).2 = true ∧
      tpAt ⟨2, [(100, [(1, 5)])]⟩ 100 1 = (5, true) := by
  refine ⟨c4_at_stage_level.1 2 100 0, ?_, ?_⟩
  · exact c4_at_stage_level.2.1 ⟨2, []⟩ ⟨2, [(100, [(1, 5)])]⟩ 100 1 5 0 rfl
  · exact c4_at_stage_level.2.2 ⟨2, []⟩ ⟨2, [(100, [(1, 5)])]⟩ 100 1 5 rfl

/-- C10: `Set` panics exactly when the pixel id is at least the pixelation
length (otherwise it stores the value, creating the stage if needed),
while `Del` is total and leaves the `TimePix` unchanged both for an
out-of-range pixel and for an undefined stage age. -/
theorem c10_set_del :
    (∀ (tp : TimePixM) (age pixel value : ℤ),
      tpSet tp age pixel value = none ↔ (tp.pixLen : ℤ) ≤ pixel) ∧
    (∀ (tp : TimePixM) (age pixel value : ℤ), pixel < (tp.pixLen : ℤ) →
      ∃ tp', tpSet tp age pixel value = some tp' ∧ tpAt tp' age pixel = (value, true)) ∧
    (∀ (tp : TimePixM) (age pixel : ℤ), (tp.pixLen : ℤ) ≤ pixel →
      tpDel tp age pixel = tp) ∧
    (∀ (tp : TimePixM) (age pixel : ℤ), alookup tp.stages age = none →
      tpDel tp age pixel = tp) := by
  refine ⟨?_, ?_, ?_, ?_⟩
  · intro tp age pixel value
    unfold tpSet
    split_ifs with hle
    · simp [hle]
    · simp [hle]
  · intro tp age pixel value hlt
    refine ⟨{ tp with
              stages := aupdate tp.stages age
                (aupdate ((alookup tp.stages age).getD []) pixel value) }, ?_, ?_⟩
    · unfold tpSet
      rw [if_neg (not_le.mpr hlt)]
    · simp [tpAt, alookup_aupdate_self]
  · intro tp age pixel hle
    unfold tpDel
    rw [if_pos hle]
  · intro tp age pixel hnone
    unfold tpDel
    split_ifs with hle
    · rfl
    · rw [hnone]

/-- C10 witness: the mutator theorem applied to the concrete `TimePix`
⟨2, [(100, [(1, 5)])]⟩: `Set` of pixel 3 panics, `Set` of pixel 0
stores, `Del` of pixel 7 and `Del` at the undefined stage 50 are no-ops. -/
theorem c10_set_del_witness :
    (tpSet ⟨2, [(100, [(1, 5)])]⟩ 100 3 9 = none ↔ (2 : ℤ) ≤ 3) ∧
      (tpSet ⟨2, [(100, [(1, 5)])]⟩ 100 0 9).isSome = true ∧
      tpDel ⟨2, [(100, [(1, 5)])]⟩ 100 7 = ⟨2, [(100, [(1, 5)])]⟩ ∧
      tpDel ⟨2, [(100, [(1, 5)])]⟩ 50 0 = ⟨2, [(100, [(1, 5)])]⟩ := by
  refine ⟨c10_set_del.1 ⟨2, [(100, [(1, 5)])]⟩ 100 3 9, ?_,
    c10_set_del.2.2.1 ⟨2, [(100, [(1, 5)])]⟩ 100 7 (by decide),
    c10_set_del.2.2.2 ⟨2, [(100, [(1, 5)])]⟩ 50 0 rfl⟩
  obtain ⟨tp', h1, -⟩ := c10_set_del.2.1 ⟨2, [(100, [(1, 5)])]⟩ 100 0 9 (by decide)
  rw [h1]
  rfl

theorem appendNew_nil (rot : List ℤ) : appendNew rot [] = rot := rfl

theorem appendNew_cons (rot : List ℤ) (b : ℤ) (t : List ℤ) :
    appendNew rot (b :: t) = appendNew (if b ∈ rot then rot else rot ++ [b]) t := rfl

theorem mem_appendNew (rot stPix : List ℤ) (x : ℤ) :
    x ∈ appendNew rot stPix ↔ x ∈ rot ∨ x ∈ stPix := by
  induction stPix generalizing rot with
  | nil => simp [appendNew_nil]
  | cons b t ih =>
    rw [appendNew_cons]
    by_cases hb : b ∈ rot
    · rw [if_pos hb, ih rot]
      constructor
      · rintro (h | h)
        · exact Or.inl h
        · exact Or.inr (List.mem_cons_of_mem b h)
      · rintro (h | h)
        · exact Or.inl h
        · rcases List.mem_cons.mp h with heq | h
          · exact Or.inl (heq ▸ hb)
          · exact Or.inr h
    · rw [if_neg hb, ih (rot ++ [b])]
      simp only [List.mem_append, List.mem_singleton, List.mem_cons]
      tauto

theorem nodup_appendNew (rot stPix : List ℤ) (h : rot.Nodup) :
    (appendNew rot stPix).Nodup := by
  induction stPix generalizing rot with
  | nil => exact h
  | cons b t ih =>
    rw [appendNew_cons]
    by_cases hb : b ∈ rot
    · rw [if_pos hb]
      exact ih rot h
    · rw [if_neg hb]
      refine ih (rot ++ [b]) ?_
      simp [List.nodup_append, h, hb]

theorem mem_mergePix (rot stPix : List ℤ) (x : ℤ) :
    x ∈ mergePix rot stPix ↔ x ∈ rot ∨ x ∈ stPix := by
  rw [mergePix, sortInts]
  rw [(List.perm_insertionSort (fun a b => a ≤ b) (appendNew rot stPix)).mem_iff]
  exact mem_appendNew rot stPix x

theorem pairwise_mergePix (rot stPix : List ℤ) (h : rot.Nodup) :
    (mergePix rot stPix).Pairwise (· < ·) := by
  have hsort : List.Sorted (· ≤ ·) (mergePix rot stPix) :=
    List.sorted_insertionSort _ _
  have hnd : (mergePix rot stPix).Nodup := by
    rw [mergePix, sortInts]
    exact ((List.perm_insertionSort (fun a b => a ≤ b)
      (appendNew rot stPix)).nodup_iff).mpr (nodup_appendNew rot stPix h)
  exact (hsort.and hnd).imp (fun hab => lt_of_le_of_ne hab.1 hab.2)

theorem addLoc_lookup (pl : PlateRec) (pixel : ℤ) (stPix : List ℤ) (age pixel' age' : ℤ) :
    plLookup (addLoc pl pixel stPix age) pixel' age' =
      if pixel' = pixel ∧ age' = age then mergePix (plLookup pl pixel age) stPix
      else plLookup pl pixel' age' := by
  by_cases hp : pixel' = pixel
  · subst hp
    by_cases ha : age' = age
    · subst ha
      simp [addLoc, plLookup, alookup_aupdate_self]
    · simp [addLoc, plLookup, alookup_aupdate_self, alookup_aupdate_ne _ _ _ _ ha, ha]
  · simp [addLoc, plLookup, alookup_aupdate_ne _ _ _ _ hp, hp]

theorem addLoc_inv (pl : PlateRec) (pixel : ℤ) (stPix : List ℤ) (age : ℤ)
    (h : plInv pl) : plInv (addLoc pl pixel stPix age) := by
  intro pixel' age'
  rw [addLoc_lookup]
  split_ifs with hc
  · exact pairwise_mergePix _ _ ((h pixel age).imp ne_of_lt)
  · exact h pixel' age'

theorem addLoc_mem (pl : PlateRec) (pixel : ℤ) (stPix : List ℤ) (age pixel' age' : ℤ)
    (x : ℤ) :
    x ∈ plLookup (addLoc pl pixel stPix age) pixel' age' ↔
      x ∈ plLookup pl pixel' age' ∨ (pixel' = pixel ∧ age' = age ∧ x ∈ stPix) := by
  rw [addLoc_lookup]
  split_ifs with hc
  · obtain ⟨hp, ha⟩ := hc
    subst hp
    subst ha
    rw [mem_mergePix]
    tauto
  · constructor
    · exact fun h => Or.inl h
    · rintro (h | ⟨hp, ha, -⟩)
      · exact h
      · exact absurd ⟨hp, ha⟩ hc

theorem foldl_addLoc (a : ℤ) (locs : List (ℤ × List ℤ)) (pl : PlateRec) :
    (plInv pl → plInv (locs.foldl (fun acc l => addLoc acc l.1 l.2 a) pl)) ∧
    ∀ pixel age x,
      x ∈ plLookup (locs.foldl (fun acc l => addLoc acc l.1 l.2 a) pl) pixel age ↔
        x ∈ plLookup pl pixel age ∨
          (age = a ∧ x ∈ ((locs.filter (fun l => l.1 = pixel)).map (fun l => l.2)).flatten) := by
  induction locs generalizing pl with
  | nil => exact ⟨fun h => h, by simp⟩
  | cons hd t ih =>
    obtain ⟨p, s⟩ := hd
    rw [List.foldl_cons]
    obtain ⟨ih1, ih2⟩ := ih (addLoc pl p s a)
    refine ⟨fun h => ih1 (addLoc_inv pl p s a h), ?_⟩
    intro pixel age x
    rw [ih2 pixel age x, addLoc_mem]
    by_cases hp : p = pixel
    · subst hp
      have hd : List.filter (fun l => decide (l.1 = p)) ((p, s) :: t)
          = (p, s) :: List.filter (fun l => decide (l.1 = p)) t := by
        simp [List.filter_cons]
      rw [hd, List.map_cons, List.flatten_cons]
      constructor
      · rintro ((h | ⟨-, ha, hx⟩) | ⟨ha, hx⟩)
        · exact Or.inl h
        · exact Or.inr ⟨ha, List.mem_append.mpr (Or.inl hx)⟩
        · exact Or.inr ⟨ha, List.mem_append.mpr (Or.inr hx)⟩
      · rintro (h | ⟨ha, hx⟩)
        · exact Or.inl (Or.inl h)
        · rcases List.mem_append.mp hx with hx | hx
          · exact Or.inl (Or.inr ⟨rfl, ha, hx⟩)
          · exact Or.inr ⟨ha, hx⟩
    · have hd : List.filter (fun l => decide (l.1 = pixel)) ((p, s) :: t)
          = List.filter (fun l => decide (l.1 = pixel)) t := by
        simp [List.filter_cons, hp]
      rw [hd]
      have hps : ¬(pixel = p ∧ age = a ∧ x ∈ s) := fun hc => hp hc.1.symm
      tauto

theorem reconsAdd_inv_mem (rec rec2 : ReconsM) (op : AddOp)
    (h : reconsAdd rec op = some rec2) :
    (recInv rec → recInv rec2) ∧
    ∀ plate pixel age x, x ∈ reconsLookup rec2 plate pixel age ↔
      x ∈ reconsLookup rec plate pixel age ∨ x ∈ suppliedOf op plate pixel age := by
  unfold reconsAdd at h
  split_ifs at h with hguard
  obtain rfl : _ = rec2 := Option.some_injective _ h
  have hfold := foldl_addLoc op.age op.locations ((alookup rec.plates op.plate).getD [])
  have hlook : ∀ pl px ag, reconsLookup
      { rec with
        plates := aupdate rec.plates op.plate
          (op.locations.foldl (fun acc l => addLoc acc l.1 l.2 op.age)
            ((alookup rec.plates op.plate).getD [])) } pl px ag =
      if pl = op.plate
      then plLookup (op.locations.foldl (fun acc l => addLoc acc l.1 l.2 op.age)
        ((alookup rec.plates op.plate).getD [])) px ag
      else reconsLookup rec pl px ag := by
    intro pl px ag
    by_cases hp : pl = op.plate
    · rw [if_pos hp]
      show plLookup ((alookup (aupdate rec.plates op.plate _) pl).getD []) px ag = _
      rw [hp, alookup_aupdate_self]
      rfl
    · rw [if_neg hp]
      show plLookup ((alookup (aupdate rec.plates op.plate _) pl).getD []) px ag = _
      rw [alookup_aupdate_ne _ _ _ _ hp]
      rfl
  constructor
  · intro hinv plate pixel age
    rw [hlook]
    split_ifs with hp
    · exact hfold.1 (fun px ag => hinv op.plate px ag) pixel age
    · exact hinv plate pixel age
  · intro plate pixel age x
    rw [hlook]
    split_ifs with hp
    · rw [hfold.2 pixel age x]
      unfold suppliedOf
      subst hp
      by_cases ha : op.age = age
      · have hc : op.plate = op.plate ∧ op.age = age := ⟨rfl, ha⟩
        rw [if_pos hc]
        have haeq : (age = op.age) = True := by simp [ha.symm]
        rw [haeq]
        tauto
      · have hne : ¬(op.plate = op.plate ∧ op.age = age) := fun hc => ha hc.2
        rw [if_neg hne]
        have hno : ¬(age = op.age ∧
            x ∈ ((op.locations.filter (fun l => decide (l.1 = pixel))).map
              (fun l => l.2)).flatten) :=
          fun hc => ha hc.1.symm
        simp only [List.not_mem_nil, or_false]
        tauto
    · unfold suppliedOf
      have hne : ¬(op.plate = plate ∧ op.age = age) := fun hc => hp hc.1.symm
      rw [if_neg hne]
      simp

theorem suppliedFor_cons (op : AddOp) (t : List AddOp) (plate pixel age : ℤ) :
    suppliedFor (op :: t) plate pixel age =
      suppliedOf op plate pixel age ++ suppliedFor t plate pixel age := rfl

theorem applyAdds_inv_mem (ops : List AddOp) (rec0 rec : ReconsM)
    (h : applyAdds rec0 ops = some rec) :
    (recInv rec0 → recInv rec) ∧
    ∀ plate pixel age x, x ∈ reconsLookup rec plate pixel age ↔
      x ∈ reconsLookup rec0 plate pixel age ∨ x ∈ suppliedFor ops plate pixel age := by
  induction ops generalizing rec0 with
  | nil =>
    obtain rfl : rec0 = rec := Option.some_injective _ h
    exact ⟨fun hi => hi, by simp [suppliedFor]⟩
  | cons op t ih =>
    rw [applyAdds] at h
    rcases hstep : reconsAdd rec0 op with _ | rec1
    · rw [hstep] at h
      exact absurd h (by simp)
    · rw [hstep] at h
      obtain ⟨s1, s2⟩ := reconsAdd_inv_mem rec0 rec1 op hstep
      obtain ⟨i1, i2⟩ := ih rec1 h
      refine ⟨fun hi => i1 (s1 hi), ?_⟩
      intro plate pixel age x
      rw [i2 plate pixel age x, s2 plate pixel age x, suppliedFor_cons, List.mem_append]
      tauto

/-- C7: after any sequence of successful `Recons.Add` calls starting from
an empty model, every stored (plate, present-pixel, age) stage-pixel list
is strictly ascending with no duplicates and equals the ascending-sorted
deduplication of the concatenation of all stage-pixel lists supplied for
that triple. -/
theorem c7_recons_add (n : ℕ) (ops : List AddOp) (rec : ReconsM)
    (h : applyAdds ⟨n, []⟩ ops = some rec) (plate pixel age : ℤ) :
    (reconsLookup rec plate pixel age).Pairwise (· < ·) ∧
      reconsLookup rec plate pixel age =
        sortInts (suppliedFor ops plate pixel age).dedup := by
  obtain ⟨hinv, hmem⟩ := applyAdds_inv_mem ops ⟨n, []⟩ rec h
  have hbase : recInv ⟨n, []⟩ := fun p x a => List.Pairwise.nil
  have hpw := hinv hbase plate pixel age
  refine ⟨hpw, ?_⟩
  have hm : ∀ x, x ∈ reconsLookup rec plate pixel age ↔
      x ∈ suppliedFor ops plate pixel age := by
    intro x
    rw [hmem plate pixel age x]
    have hb : reconsLookup ⟨n, []⟩ plate pixel age = [] := rfl
    rw [hb]
    simp
  have hRpw : (sortInts (suppliedFor ops plate pixel age).dedup).Pairwise (· < ·) := by
    have hsort : List.Sorted (fun a b => a ≤ b)
        (sortInts (suppliedFor ops plate pixel age).dedup) :=
      List.sorted_insertionSort _ _
    have hnd : (sortInts (suppliedFor ops plate pixel age).dedup).Nodup :=
      ((List.perm_insertionSort _ _).nodup_iff).mpr (List.nodup_dedup _)
    exact (hsort.and hnd).imp (fun hab => lt_of_le_of_ne hab.1 hab.2)
  have hRm : ∀ x, x ∈ sortInts (suppliedFor ops plate pixel age).dedup ↔
      x ∈ suppliedFor ops plate pixel age := by
    intro x
    rw [sortInts, (List.perm_insertionSort _ _).mem_iff, List.mem_dedup]
  haveI : IsAntisymm ℤ (· < ·) := ⟨fun a b h1 h2 => absurd h2 (lt_asymm h1)⟩
  have hperm : (reconsLookup rec plate pixel age).Perm
      (sortInts (suppliedFor ops plate pixel age).dedup) := by
    apply List.perm_of_nodup_nodup_toFinset_eq (hpw.imp ne_of_lt) (hRpw.imp ne_of_lt)
    ext x
    simp only [List.mem_toFinset]
    rw [hm x, hRm x]
  exact List.eq_of_perm_of_sorted hperm hpw hRpw

/-- C7 witness: two overlapping `Add` calls on plate 1, pixel 2, age 100
(supplying [7, 5, 7] and then [5, 3]) leave the strictly ascending union
[3, 5, 7] in the model. -/
theorem c7_recons_add_witness :
    (reconsLookup ((applyAdds ⟨10, []⟩
        [⟨1, [(2, [7, 5, 7])], 100⟩, ⟨1, [(2, [5, 3])], 100⟩]).getD ⟨10, []⟩)
      1 2 100).Pairwise (· < ·) ∧
      reconsLookup ((applyAdds ⟨10, []⟩
          [⟨1, [(2, [7, 5, 7])], 100⟩, ⟨1, [(2, [5, 3])], 100⟩]).getD ⟨10, []⟩) 1 2 100 =
        sortInts (suppliedFor [⟨1, [(2, [7, 5, 7])], 100⟩, ⟨1, [(2, [5, 3])], 100⟩]
          1 2 100).dedup :=
  c7_recons_add 10 [⟨1, [(2, [7, 5, 7])], 100⟩, ⟨1, [(2, [5, 3])], 100⟩]
    ((applyAdds ⟨10, []⟩
      [⟨1, [(2, [7, 5, 7])], 100⟩, ⟨1, [(2, [5, 3])], 100⟩]).getD ⟨10, []⟩)
    (by rfl) 1 2 100

theorem sizeMatrix_succ (d : ℕ) : sizeMatrix (d + 1) = sizeMatrix d + (d + 1) := by
  unfold sizeMatrix
  have h1 : (d + 1 + 1) * (d + 1) = (d + 1) * d + 2 * (d + 1) := by ring
  rw [h1, Nat.add_mul_div_left _ _ (by norm_num : 0 < 2)]

theorem sizeMatrix_le (i j : ℕ) (h : i ≤ j) : sizeMatrix i ≤ sizeMatrix j := by
  induction j with
  | zero =>
    rw [Nat.le_zero.mp h]
  | succ j ih =>
    rcases Nat.eq_or_lt_of_le h with h' | h'
    · rw [h']
    · exact le_trans (ih (Nat.lt_succ_iff.mp h')) (by rw [sizeMatrix_succ]; omega)

theorem distMatBuild_length (len : ℕ) (f : ℕ → ℕ → ℤ) :
    (distMatBuild len f).length = sizeMatrix len := by
  induction len with
  | zero => rfl
  | succ len ih =>
    unfold distMatBuild
    rw [List.range_succ, List.flatMap_append]
    unfold distMatBuild at ih
    simp [ih, sizeMatrix_succ]

theorem distMatBuild_get (len : ℕ) (f : ℕ → ℕ → ℤ) (i j : ℕ)
    (hj : j ≤ i) (hi : i < len) :
    (distMatBuild len f).get? (sizeMatrix i + j) = some (f i j) := by
  induction len with
  | zero => omega
  | succ len ih =>
    have hsplit : distMatBuild (len + 1) f
        = distMatBuild len f ++ (List.range (len + 1)).map (fun j => f len j) := by
      unfold distMatBuild
      conv_lhs => rw [List.range_succ]
      rw [List.flatMap_append]
      simp only [List.flatMap_cons, List.flatMap_nil, List.append_nil]
    rw [hsplit]
    rcases Nat.lt_succ_iff_lt_or_eq.mp hi with h' | h'
    · have hlt : sizeMatrix i + j < (distMatBuild len f).length := by
        rw [distMatBuild_length]
        have h1 : sizeMatrix i + j < sizeMatrix (i + 1) := by
          rw [sizeMatrix_succ]
          omega
        exact lt_of_lt_of_le h1 (sizeMatrix_le _ _ h')
      rw [List.get?_append hlt]
      exact ih h'
    · subst h'
      have hlen : (distMatBuild i f).length = sizeMatrix i := distMatBuild_length i f
      have hge : (distMatBuild i f).length ≤ sizeMatrix i + j := by omega
      rw [List.get?_append_right hge]
      have hsub : sizeMatrix i + j - (distMatBuild i f).length = j := by omega
      rw [hsub, List.get?_map]
      have hr : (List.range (i + 1)).get? j = some j := by
        rw [List.get?_eq_get (by simpa using Nat.lt_succ_of_le hj)]
        simp
      rw [hr]
      rfl

/-- C8: `NewDistMat` fails exactly when `Equator()/2 > 255`; on success,
for every pair of pixel indices below the pixel count, `At(p, q)` and
`At(q, p)` both equal the ring-quantized great-circle distance
`round(distance(p, q) / ringStep)`. -/
theorem c8_distmat (eq len : ℕ) (d : ℕ → ℕ → ℚ) (rStep : ℚ)
    (hsym : ∀ i j, d i j = d j i) :
    (newDistMat eq len (fun i j => ringDist (d i j) rStep) = none ↔ 255 < eq / 2) ∧
    ∀ m, newDistMat eq len (fun i j => ringDist (d i j) rStep) = some m →
      ∀ p q, p < len → q < len →
        distMatAt m p q = ringDist (d p q) rStep ∧ distMatAt m p q = distMatAt m q p := by
  constructor
  · unfold newDistMat
    split_ifs with hg
    · simp [hg]
    · simp [hg]
  · intro m hm p q hp hq
    unfold newDistMat at hm
    split_ifs at hm with hg
    obtain rfl : _ = m := Option.some_injective _ hm
    have hAt : ∀ x y, y ≤ x → x < len →
        distMatAt (distMatBuild len (fun i j => ringDist (d i j) rStep)) x y
          = ringDist (d x y) rStep := by
      intro x y hyx hx
      unfold distMatAt
      rw [if_neg (by omega), distMatBuild_get len _ x y hyx hx]
      rfl
    rcases le_or_lt q p with hle | hlt
    · have h1 := hAt p q hle hp
      constructor
      · exact h1
      · rcases lt_or_eq_of_le hle with hlt' | heq
        · have h2 : distMatAt (distMatBuild len (fun i j => ringDist (d i j) rStep)) q p
              = ringDist (d p q) rStep := by
            unfold distMatAt
            rw [if_pos hlt', distMatBuild_get len _ p q hle hp]
            rfl
          rw [h1, h2]
        · subst heq
          rfl
    · have h1 : distMatAt (distMatBuild len (fun i j => ringDist (d i j) rStep)) p q
          = ringDist (d q p) rStep := by
        unfold distMatAt
        rw [if_pos hlt, distMatBuild_get len _ q p (le_of_lt hlt) hq]
        rfl
      have h2 := hAt q p (le_of_lt hlt) hq
      constructor
      · rw [h1, hsym q p]
      · rw [h1, h2, hsym q p]

/-- C8 witness: the theorem applied at equator 4 (guard passes), 3 pixels,
the symmetric distance \|i − j\| and ring step 1, at the pair (1, 2). -/
theorem c8_distmat_witness :
    distMatAt ((newDistMat 4 3 (fun i j => ringDist (|(i : ℚ) - j|) 1)).getD [])
        1 2 = ringDist (|(1 : ℚ) - 2|) 1 ∧
      distMatAt ((newDistMat 4 3 (fun i j => ringDist (|(i : ℚ) - j|) 1)).getD [])
        1 2 =
        distMatAt ((newDistMat 4 3 (fun i j => ringDist (|(i : ℚ) - j|) 1)).getD [])
          2 1 :=
  (c8_distmat 4 3 (fun i j => |(i : ℚ) - j|) 1
    (fun i j => abs_sub_comm (i : ℚ) j)).2
    ((newDistMat 4 3 (fun i j => ringDist (|(i : ℚ) - j|) 1)).getD [])
    (by rfl) 1 2 (by norm_num) (by norm_num)

theorem sum_map_div (l : List ℚ) (s : ℚ) : (l.map (fun x => x / s)).sum = l.sum / s := by
  induction l with
  | nil => simp
  | cons a t ih => simp [ih, add_div]

theorem rawRing_pos (e : ℚ → ℚ) (lg : ℕ → ℚ) (lambda rStep : ℚ) (perRing : List ℕ)
    (hpos : ∀ x, 0 < e x) (hne : perRing ≠ []) :
    0 < (rawRing e lg lambda rStep perRing).sum := by
  apply List.sum_pos
  · intro x hx
    rw [rawRing] at hx
    obtain ⟨i, -, rfl⟩ := List.mem_map.mp hx
    exact hpos _
  · rw [rawRing]
    simp only [ne_eq, List.map_eq_nil_iff, List.range_eq_nil]
    exact fun h => hne (List.length_eq_zero.mp h)

/-- C9: for every λ > 0 and non-empty ring list, the normalized ring
masses of `NewNormal` sum to 1, the last cdf entry is 1, and `CDF(dist)`
returns 1 for every distance whose rounded ring index is at least the
number of rings (all in exact arithmetic, given that the exponential is
strictly positive as the real one is). -/
theorem c9_normal (e : ℚ → ℚ) (lg : ℕ → ℚ) (lambda rStep : ℚ) (perRing : List ℕ)
    (_hl : 0 < lambda) (hne : perRing ≠ []) (hpos : ∀ x, 0 < e x) :
    (newNormalRing e lg lambda rStep perRing).sum = 1 ∧
    (newNormalCdf e lg lambda rStep perRing).getLast? = some 1 ∧
    ∀ dist, (perRing.length : ℤ) ≤ goRound (dist / rStep) →
      normalCDF (newNormalCdf e lg lambda rStep perRing) rStep dist = some 1 := by
  have hs : 0 < (rawRing e lg lambda rStep perRing).sum :=
    rawRing_pos e lg lambda rStep perRing hpos hne
  have hraw_len : (rawRing e lg lambda rStep perRing).length = perRing.length := by
    rw [rawRing, List.length_map, List.length_range]
  have hcdf_len : (newNormalCdf e lg lambda rStep perRing).length = perRing.length := by
    rw [newNormalCdf, List.length_map, prefixSums, List.length_map, List.length_range,
      hraw_len]
  refine ⟨?_, ?_, ?_⟩
  · rw [newNormalRing, sum_map_div, div_self (ne_of_gt hs)]
  · have hn : 0 < perRing.length := List.length_pos.mpr hne
    have hlast : (newNormalCdf e lg lambda rStep perRing).getLast?
        = (newNormalCdf e lg lambda rStep perRing).get? (perRing.length - 1) := by
      rw [List.getLast?_eq_get?, hcdf_len]
    rw [hlast, newNormalCdf, List.get?_map, prefixSums, List.get?_map]
    have hr : (List.range (rawRing e lg lambda rStep perRing).length).get?
        (perRing.length - 1) = some (perRing.length - 1) := by
      rw [List.get?_eq_get (by rw [List.length_range, hraw_len]; omega)]
      simp
    rw [hr]
    have htake : ((rawRing e lg lambda rStep perRing).take (perRing.length - 1 + 1)).sum
        = (rawRing e lg lambda rStep perRing).sum := by
      rw [List.take_of_length_le (by omega)]
    simp only [Option.map_some']
    rw [htake, div_self (ne_of_gt hs)]
  · intro dist hge
    rw [normalCDF, if_pos (by rw [hcdf_len]; exact hge)]

/-- C9 witness: the theorem applied to λ = 1, step 1, rings [1, 2, 1],
the constant exponential 1 and logarithm 0, with the clamp query at
distance 5. -/
theorem c9_normal_witness :
    (newNormalRing (fun _ => 1) (fun _ => 0) 1 1 [1, 2, 1]).sum = 1 ∧
      (newNormalCdf (fun _ => 1) (fun _ => 0) 1 1 [1, 2, 1]).getLast? = some 1 ∧
      normalCDF (newNormalCdf (fun _ => 1) (fun _ => 0) 1 1 [1, 2, 1]) 1 5 = some 1 := by
  obtain ⟨h1, h2, h3⟩ := c9_normal (fun _ => 1) (fun _ => 0) 1 1 [1, 2, 1]
    (by norm_num) (by simp) (fun x => one_pos)
  refine ⟨h1, h2, h3 5 ?_⟩
  have hg : goRound ((5 : ℚ) / 1) = 5 := by
    rw [goRound, if_neg (by norm_num)]
    norm_num
  rw [hg]
  norm_num

theorem parsedAppend_distinct (acc : List Euler) (r : RotRow)
    (h : acc.Pairwise distinctTF) : (parsedAppend acc r).Pairwise distinctTF := by
  unfold parsedAppend
  split_ifs with hany
  · exact h
  · rw [List.pairwise_append]
    refine ⟨h, List.pairwise_singleton _ _, ?_⟩
    intro a ha b hb
    rw [List.mem_singleton] at hb
    subst hb
    have h2 : ∀ x ∈ acc, x.T = r.t → ¬x.fix = r.fix := by simpa using hany
    by_cases hT : a.T = r.t
    · exact Or.inr (h2 a ha hT)
    · exact Or.inl hT

theorem parsedRotsAux_distinct (p : ℤ) (rows : List RotRow) (acc : List Euler)
    (h : acc.Pairwise distinctTF) : (parsedRotsAux p rows acc).Pairwise distinctTF := by
  induction rows generalizing acc with
  | nil => exact h
  | cons r rs ih =>
    unfold parsedRotsAux
    split_ifs with hp
    · exact ih _ (parsedAppend_distinct acc r h)
    · exact ih _ h

theorem parsedAppend_mem (acc : List Euler) (r : RotRow) (e : Euler)
    (h : e ∈ parsedAppend acc r) : e ∈ acc ∨ e = eulerOfRow r := by
  unfold parsedAppend at h
  split_ifs at h with hany
  · exact Or.inl h
  · rcases List.mem_append.mp h with h | h
    · exact Or.inl h
    · exact Or.inr (List.mem_singleton.mp h)

theorem parsedRotsAux_mem (p : ℤ) (rows : List RotRow) (acc : List Euler) (e : Euler)
    (h : e ∈ parsedRotsAux p rows acc) :
    e ∈ acc ∨ ∃ r ∈ rows, r.plate = p ∧ e = eulerOfRow r := by
  induction rows generalizing acc with
  | nil => exact Or.inl h
  | cons r rs ih =>
    unfold parsedRotsAux at h
    split_ifs at h with hp
    · rcases ih _ h with h' | ⟨r', hr', hp', he'⟩
      · rcases parsedAppend_mem acc r e h' with h'' | h''
        · exact Or.inl h''
        · exact Or.inr ⟨r, List.mem_cons_self r rs, hp, h''⟩
      · exact Or.inr ⟨r', List.mem_cons_of_mem r hr', hp', he'⟩
    · rcases ih _ h with h' | ⟨r', hr', hp', he'⟩
      · exact Or.inl h'
      · exact Or.inr ⟨r', List.mem_cons_of_mem r hr', hp', he'⟩

theorem parsedRotsAux_ne_nil (p : ℤ) (rows : List RotRow) (acc : List Euler)
    (h : acc ≠ [] ∨ ∃ r ∈ rows, r.plate = p) : parsedRotsAux p rows acc ≠ [] := by
  induction rows generalizing acc with
  | nil =>
    rcases h with h | ⟨r, hr, -⟩
    · exact h
    · exact absurd hr (List.not_mem_nil r)
  | cons r rs ih =>
    unfold parsedRotsAux
    split_ifs with hp
    · refine ih (parsedAppend acc r) (Or.inl ?_)
      unfold parsedAppend
      split_ifs with hany
      · intro hnil
        subst hnil
        simp at hany
      · exact fun hc => by simpa using congrArg List.length hc
    · refine ih acc ?_
      rcases h with h | ⟨r', hr', hp'⟩
      · exact Or.inl h
      · rcases List.mem_cons.mp hr' with heq | hmem
        · exact absurd (heq ▸ hp') hp
        · exact Or.inr ⟨r', hmem, hp'⟩

theorem platesOfAux_mem (rows : List RotRow) (acc : List ℤ) (p : ℤ)
    (h : p ∈ platesOfAux rows acc) : p ∈ acc ∨ ∃ r ∈ rows, r.plate = p := by
  induction rows generalizing acc with
  | nil => exact Or.inl h
  | cons r rs ih =>
    unfold platesOfAux at h
    split_ifs at h with hc
    · rcases ih _ h with h' | ⟨r', hr', hp'⟩
      · exact Or.inl h'
      · exact Or.inr ⟨r', List.mem_cons_of_mem r hr', hp'⟩
    · rcases ih _ h with h' | ⟨r', hr', hp'⟩
      · rcases List.mem_append.mp h' with h'' | h''
        · exact Or.inl h''
        · exact Or.inr ⟨r, List.mem_cons_self r rs, (List.mem_singleton.mp h'').symm⟩
      · exact Or.inr ⟨r', List.mem_cons_of_mem r hr', hp'⟩

theorem parsedRots_T_nonneg (rows : List RotRow) (p : ℤ)
    (hpos : ∀ r ∈ rows, 0 ≤ r.t) (e : Euler) (he : e ∈ parsedRots rows p) :
    0 ≤ e.T := by
  rcases parsedRotsAux_mem p rows [] e he with h | ⟨r, hr, -, he'⟩
  · exact absurd h (List.not_mem_nil e)
  · rw [he']
    exact hpos r hr

theorem distinctTF_symm : Symmetric distinctTF :=
  fun _ _ h => h.imp Ne.symm Ne.symm

theorem sortEuler_sorted (l : List Euler) :
    (sortEuler l).Sorted (fun a b => a.T ≤ b.T) :=
  List.sorted_insertionSort _ l

theorem sortEuler_perm (l : List Euler) : (sortEuler l).Perm l :=
  List.perm_insertionSort _ l

theorem withZero_props (l : List Euler)
    (hs : l.Sorted (fun a b => a.T ≤ b.T))
    (hd : l.Pairwise distinctTF)
    (hpos : ∀ e ∈ l, 0 ≤ e.T)
    (hne : l ≠ []) :
    (withZero l).Sorted (fun a b => a.T ≤ b.T) ∧
    (withZero l).Pairwise distinctTF ∧
    (∃ e, (withZero l).head? = some e ∧ e.T = 0) ∧
    ((∀ e ∈ l, e.T ≠ 0) →
      (withZero l).head? = l.head?.map (fun e0 => zeroEuler e0.fix)) := by
  rcases l with _ | ⟨e, t⟩
  · exact absurd rfl hne
  · have hw : withZero (e :: t) = if 0 < e.T then zeroEuler e.fix :: e :: t else e :: t :=
      rfl
    rw [hw]
    obtain ⟨hhead, htail⟩ := List.sorted_cons.mp hs
    by_cases h0 : 0 < e.T
    · rw [if_pos h0]
      refine ⟨?_, ?_, ⟨zeroEuler e.fix, rfl, rfl⟩, fun _ => rfl⟩
      · rw [List.sorted_cons]
        refine ⟨?_, hs⟩
        intro b hb
        rcases List.mem_cons.mp hb with heq | hmem
        · rw [heq]
          exact le_of_lt h0
        · exact le_trans (le_of_lt h0) (hhead b hmem)
      · rw [List.pairwise_cons]
        refine ⟨?_, hd⟩
        intro b hb
        have hbT : 0 < b.T := by
          rcases List.mem_cons.mp hb with heq | hmem
          · rw [heq]
            exact h0
          · exact lt_of_lt_of_le h0 (hhead b hmem)
        exact Or.inl (ne_of_gt hbT).symm
    · rw [if_neg h0]
      have he0 : e.T = 0 := le_antisymm (not_lt.mp h0) (hpos e (List.mem_cons_self e t))
      refine ⟨hs, hd, ⟨e, rfl, he0⟩, ?_⟩
      intro hnz
      exact absurd he0 (hnz e (List.mem_cons_self e t))

theorem head?_eraseIdx_pos (l : List Euler) (i : ℕ) (hi : 1 ≤ i) :
    (l.eraseIdx i).head? = l.head? := by
  cases l with
  | nil => simp [List.eraseIdx]
  | cons a t =>
    cases i with
    | zero => omega
    | succ n => rfl

theorem removeJumpsFrom_sublist (l : List Euler) (i : ℕ) :
    (removeJumpsFrom l i).Sublist l := by
  induction l, i using removeJumpsFrom.induct with
  | case1 l h ih =>
    rw [removeJumpsFrom, dif_pos h]
    norm_num
    exact ih
  | case2 l i h h0 hlen ih =>
    rw [removeJumpsFrom, dif_pos h, if_neg h0, if_pos hlen]
    exact ih
  | case3 l i h h0 hlen hT ih =>
    rw [removeJumpsFrom, dif_pos h, if_neg h0, if_neg hlen, if_pos hT]
    exact ih
  | case4 l i h h0 hlen hT hprev ih =>
    rw [removeJumpsFrom, dif_pos h, if_neg h0, if_neg hlen, if_neg hT, if_pos hprev]
    exact ih
  | case5 l i h h0 hlen hT hprev hpost ih =>
    rw [removeJumpsFrom, dif_pos h, if_neg h0, if_neg hlen, if_neg hT, if_neg hprev,
      if_pos hpost]
    exact ih
  | case6 l i h h0 hlen hT hprev hpost ih =>
    rw [removeJumpsFrom, dif_pos h, if_neg h0, if_neg hlen, if_neg hT, if_neg hprev,
      if_neg hpost]
    exact ih.trans (List.eraseIdx_sublist l i)
  | case7 l i h =>
    rw [removeJumpsFrom, dif_neg h]

theorem removeJumpsFrom_head (l : List Euler) (i : ℕ) :
    1 ≤ i → (removeJumpsFrom l i).head? = l.head? := by
  induction l, i using removeJumpsFrom.induct with
  | case1 l h ih =>
    intro hc
    omega
  | case2 l i h h0 hlen ih =>
    intro hi
    rw [removeJumpsFrom, dif_pos h, if_neg h0, if_pos hlen]
    exact ih (by omega)
  | case3 l i h h0 hlen hT ih =>
    intro hi
    rw [removeJumpsFrom, dif_pos h, if_neg h0, if_neg hlen, if_pos hT]
    exact ih (by omega)
  | case4 l i h h0 hlen hT hprev ih =>
    intro hi
    rw [removeJumpsFrom, dif_pos h, if_neg h0, if_neg hlen, if_neg hT, if_pos hprev]
    exact ih (by omega)
  | case5 l i h h0 hlen hT hprev hpost ih =>
    intro hi
    rw [removeJumpsFrom, dif_pos h, if_neg h0, if_neg hlen, if_neg hT, if_neg hprev,
      if_pos hpost]
    exact ih (by omega)
  | case6 l i h h0 hlen hT hprev hpost ih =>
    intro hi
    rw [removeJumpsFrom, dif_pos h, if_neg h0, if_neg hlen, if_neg hT, if_neg hprev,
      if_neg hpost]
    rw [ih (by omega)]
    exact head?_eraseIdx_pos l i (by omega)
  | case7 l i h =>
    intro hi
    rw [removeJumpsFrom, dif_neg h]

theorem removeJumpsFrom_head0 (l : List Euler) :
    (removeJumpsFrom l 0).head? = l.head? := by
  by_cases h : 0 < l.length
  · rw [removeJumpsFrom, dif_pos h]
    norm_num
    exact removeJumpsFrom_head l 1 le_rfl
  · rw [removeJumpsFrom, dif_neg h]

theorem swapAdj_perm (l : List Euler) (i : ℕ) : (swapAdj l i).Perm l := by
  induction l generalizing i with
  | nil =>
    cases i <;> exact List.Perm.refl _
  | cons a t ih =>
    cases i with
    | zero =>
      cases t with
      | nil => exact List.Perm.refl _
      | cons b t' => exact List.Perm.swap a b t'
    | succ n => exact List.Perm.cons a (ih n)

theorem head?_swapAdj_pos (l : List Euler) (i : ℕ) (hi : 1 ≤ i) :
    (swapAdj l i).head? = l.head? := by
  cases l with
  | nil => cases i <;> rfl
  | cons a t =>
    cases i with
    | zero => omega
    | succ n => rfl

theorem swapAdj_sorted (l : List Euler) (i : ℕ)
    (hs : l.Sorted (fun a b => a.T ≤ b.T))
    (heq : (l.getD (i + 1) dummyEuler).T = (l.getD i dummyEuler).T)
    (hlen : i + 1 < l.length) :
    (swapAdj l i).Sorted (fun a b => a.T ≤ b.T) := by
  induction l generalizing i with
  | nil => simp at hlen
  | cons a t ih =>
    cases i with
    | zero =>
      cases t with
      | nil => simp at hlen
      | cons b t' =>
        have heq' : b.T = a.T := by simpa using heq
        obtain ⟨ha, hs'⟩ := List.sorted_cons.mp hs
        obtain ⟨hb, hs''⟩ := List.sorted_cons.mp hs'
        rw [show swapAdj (a :: b :: t') 0 = b :: a :: t' from rfl]
        rw [List.sorted_cons]
        constructor
        · intro x hx
          rcases List.mem_cons.mp hx with hxa | hxt
          · rw [hxa]
            exact le_of_eq heq'
          · exact hb x hxt
        · rw [List.sorted_cons]
          exact ⟨fun x hx => le_trans (le_of_eq heq'.symm) (hb x hx), hs''⟩
    | succ n =>
      obtain ⟨ha, hs'⟩ := List.sorted_cons.mp hs
      rw [show swapAdj (a :: t) (n + 1) = a :: swapAdj t n from rfl, List.sorted_cons]
      constructor
      · intro x hx
        exact ha x ((swapAdj_perm t n).mem_iff.mp hx)
      · exact ih n hs' (by simpa using heq) (by simpa using hlen)

theorem swapPass_perm (l : List Euler) (i : ℕ) : (swapPass l i).Perm l := by
  induction l, i using swapPass.induct with
  | case1 l h ih =>
    rw [swapPass, dif_pos h]
    norm_num
    exact ih
  | case2 l i h h0 hlen ih =>
    rw [swapPass, dif_pos h, if_neg h0, if_pos hlen]
    exact ih
  | case3 l i h h0 hlen hT ih =>
    rw [swapPass, dif_pos h, if_neg h0, if_neg hlen, if_pos hT]
    exact ih
  | case4 l i h h0 hlen hT hfix ih =>
    rw [swapPass, dif_pos h, if_neg h0, if_neg hlen, if_neg hT, if_pos hfix]
    exact ih.trans (swapAdj_perm l i)
  | case5 l i h h0 hlen hT hfix ih =>
    rw [swapPass, dif_pos h, if_neg h0, if_neg hlen, if_neg hT, if_neg hfix]
    exact ih
  | case6 l i h =>
    rw [swapPass, dif_neg h]

theorem swapPass_sorted (l : List Euler) (i : ℕ) :
    l.Sorted (fun a b => a.T ≤ b.T) → (swapPass l i).Sorted (fun a b => a.T ≤ b.T) := by
  induction l, i using swapPass.induct with
  | case1 l h ih =>
    intro hs
    rw [swapPass, dif_pos h]
    norm_num
    exact ih hs
  | case2 l i h h0 hlen ih =>
    intro hs
    rw [swapPass, dif_pos h, if_neg h0, if_pos hlen]
    exact ih hs
  | case3 l i h h0 hlen hT ih =>
    intro hs
    rw [swapPass, dif_pos h, if_neg h0, if_neg hlen, if_pos hT]
    exact ih hs
  | case4 l i h h0 hlen hT hfix ih =>
    intro hs
    rw [swapPass, dif_pos h, if_neg h0, if_neg hlen, if_neg hT, if_pos hfix]
    refine ih (swapAdj_sorted l i hs ?_ ?_)
    · exact not_ne_iff.mp hT
    · omega
  | case5 l i h h0 hlen hT hfix ih =>
    intro hs
    rw [swapPass, dif_pos h, if_neg h0, if_neg hlen, if_neg hT, if_neg hfix]
    exact ih hs
  | case6 l i h =>
    intro hs
    rw [swapPass, dif_neg h]
    exact hs

theorem swapPass_head (l : List Euler) (i : ℕ) :
    1 ≤ i → (swapPass l i).head? = l.head? := by
  induction l, i using swapPass.induct with
  | case1 l h ih =>
    intro hc
    omega
  | case2 l i h h0 hlen ih =>
    intro hi
    rw [swapPass, dif_pos h, if_neg h0, if_pos hlen]
    exact ih (by omega)
  | case3 l i h h0 hlen hT ih =>
    intro hi
    rw [swapPass, dif_pos h, if_neg h0, if_neg hlen, if_pos hT]
    exact ih (by omega)
  | case4 l i h h0 hlen hT hfix ih =>
    intro hi
    rw [swapPass, dif_pos h, if_neg h0, if_neg hlen, if_neg hT, if_pos hfix]
    rw [ih (by omega)]
    exact head?_swapAdj_pos l i (by omega)
  | case5 l i h h0 hlen hT hfix ih =>
    intro hi
    rw [swapPass, dif_pos h, if_neg h0, if_neg hlen, if_neg hT, if_neg hfix]
    exact ih (by omega)
  | case6 l i h =>
    intro hi
    rw [swapPass, dif_neg h]

theorem swapPass_head0 (l : List Euler) : (swapPass l 0).head? = l.head? := by
  by_cases h : 0 < l.length
  · rw [swapPass, dif_pos h]
    norm_num
    exact swapPass_head l 1 le_rfl
  · rw [swapPass, dif_neg h]

theorem strictT_getD_ne (l : List Euler)
    (hstrict : l.Pairwise (fun a b => a.T < b.T)) (j k : ℕ)
    (hjk : j < k) (hk : k < l.length) :
    (l.getD j dummyEuler).T ≠ (l.getD k dummyEuler).T := by
  have hj : j < l.length := lt_trans hjk hk
  rw [List.getD_eq_get?, List.get?_eq_get hj, List.getD_eq_get?, List.get?_eq_get hk]
  exact ne_of_lt (List.pairwise_iff_get.mp hstrict ⟨j, hj⟩ ⟨k, hk⟩ hjk)

theorem removeJumpsFrom_of_strictT (l : List Euler)
    (hstrict : l.Pairwise (fun a b => a.T < b.T)) (i : ℕ) :
    removeJumpsFrom l i = l := by
  induction l, i using removeJumpsFrom.induct with
  | case1 l h ih =>
    rw [removeJumpsFrom, dif_pos h]
    norm_num
    exact ih hstrict
  | case2 l i h h0 hlen ih =>
    rw [removeJumpsFrom, dif_pos h, if_neg h0, if_pos hlen]
    exact ih hstrict
  | case3 l i h h0 hlen hT ih =>
    rw [removeJumpsFrom, dif_pos h, if_neg h0, if_neg hlen, if_pos hT]
    exact ih hstrict
  | case4 l i h h0 hlen hT hprev ih =>
    exfalso
    push_neg at hT
    rcases Classical.em ((l.getD (i + 1) dummyEuler).T = (l.getD i dummyEuler).T) with hc | hc
    · exact strictT_getD_ne l hstrict i (i + 1) (by omega) (by omega) hc.symm
    · exact strictT_getD_ne l hstrict (i - 1) i (by omega) h (hT hc)
  | case5 l i h h0 hlen hT hprev hpost ih =>
    exfalso
    push_neg at hT
    rcases Classical.em ((l.getD (i + 1) dummyEuler).T = (l.getD i dummyEuler).T) with hc | hc
    · exact strictT_getD_ne l hstrict i (i + 1) (by omega) (by omega) hc.symm
    · exact strictT_getD_ne l hstrict (i - 1) i (by omega) h (hT hc)
  | case6 l i h h0 hlen hT hprev hpost ih =>
    exfalso
    push_neg at hT
    rcases Classical.em ((l.getD (i + 1) dummyEuler).T = (l.getD i dummyEuler).T) with hc | hc
    · exact strictT_getD_ne l hstrict i (i + 1) (by omega) (by omega) hc.symm
    · exact strictT_getD_ne l hstrict (i - 1) i (by omega) h (hT hc)
  | case7 l i h =>
    rw [removeJumpsFrom, dif_neg h]

theorem swapPass_of_strictT (l : List Euler)
    (hstrict : l.Pairwise (fun a b => a.T < b.T)) (i : ℕ) :
    swapPass l i = l := by
  induction l, i using swapPass.induct with
  | case1 l h ih =>
    rw [swapPass, dif_pos h]
    norm_num
    exact ih hstrict
  | case2 l i h h0 hlen ih =>
    rw [swapPass, dif_pos h, if_neg h0, if_pos hlen]
    exact ih hstrict
  | case3 l i h h0 hlen hT ih =>
    rw [swapPass, dif_pos h, if_neg h0, if_neg hlen, if_pos hT]
    exact ih hstrict
  | case4 l i h h0 hlen hT hfix ih =>
    exfalso
    exact strictT_getD_ne l hstrict i (i + 1) (by omega) (by omega)
      (not_ne_iff.mp hT).symm
  | case5 l i h h0 hlen hT hfix ih =>
    rw [swapPass, dif_pos h, if_neg h0, if_neg hlen, if_neg hT, if_neg hfix]
    exact ih hstrict
  | case6 l i h =>
    rw [swapPass, dif_neg h]

theorem normalizePlate_of_strictT (l : List Euler)
    (h : (withZero (sortEuler l)).Pairwise (fun a b => a.T < b.T)) :
    normalizePlate l = withZero (sortEuler l) := by
  unfold normalizePlate
  rw [removeJumpsFrom_of_strictT _ h 0, swapPass_of_strictT _ h 0]

/-- C2: the failing longitude validation, evaluated.  A row with latitude
0 and longitude 200 passes `Read`'s range validation (the longitude check
re-reads the latitude variable) and `Read` succeeds on it, while the
specification demands a row-scoped parse error; latitude violations are
rejected as specified (a row with latitude 200 fails). -/
theorem c2_lon_not_validated :
    rowBadRange ⟨1, 10000000, 0, 200, 5, 0⟩ = false ∧
      specRowBadRange ⟨1, 10000000, 0, 200, 5, 0⟩ = true ∧
      readRotation [⟨1, 10000000, 0, 200, 5, 0⟩]
        = Except.ok [(1, [zeroEuler 0, ⟨10000000, 0, 200, 5, 0⟩])] ∧
      rowBadRange ⟨1, 10000000, 200, 0, 5, 0⟩ = true := by
  refine ⟨by decide, by decide, ?_, by decide⟩
  have hround : readRotation [⟨1, 10000000, 0, 200, 5, 0⟩]
      = Except.ok ((platesOf [⟨1, 10000000, 0, 200, 5, 0⟩]).map
        (fun p => (p, normalizePlate (parsedRots [⟨1, 10000000, 0, 200, 5, 0⟩] p)))) := by
    rw [readRotation, if_neg (by decide)]
  rw [hround]
  have hplates : platesOf [⟨1, 10000000, 0, 200, 5, 0⟩] = [1] := rfl
  have hparsed : parsedRots [⟨1, 10000000, 0, 200, 5, 0⟩] 1
      = [⟨10000000, 0, 200, 5, 0⟩] := rfl
  rw [hplates, List.map_cons, List.map_nil, hparsed]
  have hwz : withZero (sortEuler [⟨10000000, 0, 200, 5, 0⟩])
      = [zeroEuler 0, ⟨10000000, 0, 200, 5, 0⟩] := rfl
  rw [normalizePlate_of_strictT _ (by rw [hwz]; decide), hwz]

/-- C6 counterexample: a single rotation row at a negative time (−5 Myr)
is accepted by `Read`, and the resulting plate list has no entry at
t = 0 — the zero-time identity is only prepended when the earliest time
is strictly positive. -/
theorem c6_counterexample :
    readRotation [⟨1, -5000000, 0, 0, 0, 0⟩]
      = Except.ok [(1, [⟨-5000000, 0, 0, 0, 0⟩])] ∧
      (⟨-5000000, 0, 0, 0, 0⟩ : Euler).T ≠ 0 := by
  refine ⟨?_, by decide⟩
  have hround : readRotation [⟨1, -5000000, 0, 0, 0, 0⟩]
      = Except.ok ((platesOf [⟨1, -5000000, 0, 0, 0, 0⟩]).map
        (fun p => (p, normalizePlate (parsedRots [⟨1, -5000000, 0, 0, 0, 0⟩] p)))) := by
    rw [readRotation, if_neg (by decide)]
  rw [hround]
  have hplates : platesOf [⟨1, -5000000, 0, 0, 0, 0⟩] = [1] := rfl
  have hparsed : parsedRots [⟨1, -5000000, 0, 0, 0, 0⟩] 1
      = [⟨-5000000, 0, 0, 0, 0⟩] := rfl
  rw [hplates, List.map_cons, List.map_nil, hparsed]
  have hwz : withZero (sortEuler [⟨-5000000, 0, 0, 0, 0⟩])
      = [⟨-5000000, 0, 0, 0, 0⟩] := rfl
  rw [normalizePlate_of_strictT _ (by rw [hwz]; decide), hwz]

/-- C6 (amended): when `Read` succeeds on an input whose rotation times
are all nonnegative, every plate's rotation list is sorted by time
ascending, no two entries share the same (time, fix) pair, and the list
starts with an entry at t = 0; when no input row of the plate has time 0,
that head entry is the zero-time identity rotation whose fix is the fix
of the earliest parsed entry. -/
theorem c6_read_normalized (rows : List RotRow) (plates : List (ℤ × List Euler))
    (hpos : ∀ r ∈ rows, 0 ≤ r.t)
    (h : readRotation rows = Except.ok plates)
    (p : ℤ) (l : List Euler) (hmem : (p, l) ∈ plates) :
    l.Sorted (fun a b => a.T ≤ b.T) ∧
    l.Pairwise distinctTF ∧
    (∃ e, l.head? = some e ∧ e.T = 0) ∧
    ((∀ r ∈ rows, r.plate = p → r.t ≠ 0) →
      l.head? = (sortEuler (parsedRots rows p)).head?.map (fun e0 => zeroEuler e0.fix)) := by
  rw [readRotation] at h
  split_ifs at h with hbad
  obtain rfl : _ = plates := Except.ok.inj h
  obtain ⟨q, hq, heq⟩ := List.mem_map.mp hmem
  cases heq
  have hplate : ∃ r ∈ rows, r.plate = p := by
    rcases platesOfAux_mem rows [] p hq with hc | hex
    · exact absurd hc (List.not_mem_nil p)
    · exact hex
  have hL0ne : parsedRots rows p ≠ [] := parsedRotsAux_ne_nil p rows [] (Or.inr hplate)
  have hL0d : (parsedRots rows p).Pairwise distinctTF :=
    parsedRotsAux_distinct p rows [] List.Pairwise.nil
  have hL1s := sortEuler_sorted (parsedRots rows p)
  have hL1perm := sortEuler_perm (parsedRots rows p)
  have hL1d : (sortEuler (parsedRots rows p)).Pairwise distinctTF :=
    (hL1perm.pairwise_iff (fun h => distinctTF_symm h)).mpr hL0d
  have hL1ne : sortEuler (parsedRots rows p) ≠ [] := by
    intro hc
    apply hL0ne
    have hpm := hL1perm.symm
    rw [hc] at hpm
    exact hpm.eq_nil
  have hL1pos : ∀ e ∈ sortEuler (parsedRots rows p), 0 ≤ e.T := by
    intro e he
    exact parsedRots_T_nonneg rows p hpos e (hL1perm.mem_iff.mp he)
  obtain ⟨hW_s, hW_d, ⟨e0, hW_head, hW_T⟩, hW_pre⟩ :=
    withZero_props _ hL1s hL1d hL1pos hL1ne
  have hsub := removeJumpsFrom_sublist (withZero (sortEuler (parsedRots rows p))) 0
  have hL3s : (removeJumpsFrom (withZero (sortEuler (parsedRots rows p))) 0).Sorted
      (fun a b => a.T ≤ b.T) := hW_s.sublist hsub
  have hL3d : (removeJumpsFrom (withZero (sortEuler (parsedRots rows p))) 0).Pairwise
      distinctTF := hW_d.sublist hsub
  have hL3head := removeJumpsFrom_head0 (withZero (sortEuler (parsedRots rows p)))
  have hperm4 := swapPass_perm (removeJumpsFrom (withZero (sortEuler
    (parsedRots rows p))) 0) 0
  refine ⟨?_, ?_, ?_, ?_⟩
  · exact swapPass_sorted _ 0 hL3s
  · exact (hperm4.pairwise_iff (fun h => distinctTF_symm h)).mpr hL3d
  · refine ⟨e0, ?_, hW_T⟩
    rw [show normalizePlate (parsedRots rows p)
      = swapPass (removeJumpsFrom (withZero (sortEuler (parsedRots rows p))) 0) 0
      from rfl]
    rw [swapPass_head0, hL3head, hW_head]
  · intro hnz
    have hnz' : ∀ e ∈ sortEuler (parsedRots rows p), e.T ≠ 0 := by
      intro e he
      rcases parsedRotsAux_mem p rows [] e (hL1perm.mem_iff.mp he) with
        hc | ⟨r, hr, hpr, her⟩
      · exact absurd hc (List.not_mem_nil e)
      · rw [her]
        exact hnz r hr hpr
    rw [show normalizePlate (parsedRots rows p)
      = swapPass (removeJumpsFrom (withZero (sortEuler (parsedRots rows p))) 0) 0
      from rfl]
    rw [swapPass_head0, hL3head, hW_pre hnz']

/-- C6 witness: the amended theorem applied to the two-row table
(plate 1 at 10 and 5 years, fix 0): the normalized list is the strictly
time-sorted [identity at 0, entry at 5, entry at 10], its head has time 0
and is the identity with the fix of the earliest parsed entry. -/
theorem c6_read_normalized_witness :
    List.Sorted (fun a b : Euler => a.T ≤ b.T)
      [⟨0, 90, 0, 0, 0⟩, ⟨5, 1, 1, 1, 0⟩, ⟨10, 0, 0, 0, 0⟩] ∧
    List.Pairwise distinctTF
      ([⟨0, 90, 0, 0, 0⟩, ⟨5, 1, 1, 1, 0⟩, ⟨10, 0, 0, 0, 0⟩] : List Euler) ∧
    (([⟨0, 90, 0, 0, 0⟩, ⟨5, 1, 1, 1, 0⟩, ⟨10, 0, 0, 0, 0⟩] : List Euler).head?.map
      (fun e => e.T) = some 0) ∧
    ([⟨0, 90, 0, 0, 0⟩, ⟨5, 1, 1, 1, 0⟩, ⟨10, 0, 0, 0, 0⟩] : List Euler).head?
      = (sortEuler (parsedRots [⟨1, 10, 0, 0, 0, 0⟩, ⟨1, 5, 1, 1, 1, 0⟩] 1)).head?.map
        (fun e0 => zeroEuler e0.fix) := by
  have hread : readRotation [⟨1, 10, 0, 0, 0, 0⟩, ⟨1, 5, 1, 1, 1, 0⟩]
      = Except.ok [(1, [⟨0, 90, 0, 0, 0⟩, ⟨5, 1, 1, 1, 0⟩, ⟨10, 0, 0, 0, 0⟩])] := by
    have hround : readRotation [⟨1, 10, 0, 0, 0, 0⟩, ⟨1, 5, 1, 1, 1, 0⟩]
        = Except.ok ((platesOf [⟨1, 10, 0, 0, 0, 0⟩, ⟨1, 5, 1, 1, 1, 0⟩]).map
          (fun p => (p, normalizePlate
            (parsedRots [⟨1, 10, 0, 0, 0, 0⟩, ⟨1, 5, 1, 1, 1, 0⟩] p)))) := by
      rw [readRotation, if_neg (by decide)]
    rw [hround]
    have hplates : platesOf [⟨1, 10, 0, 0, 0, 0⟩, ⟨1, 5, 1, 1, 1, 0⟩] = [1] := rfl
    have hparsed : parsedRots [⟨1, 10, 0, 0, 0, 0⟩, ⟨1, 5, 1, 1, 1, 0⟩] 1
        = [⟨10, 0, 0, 0, 0⟩, ⟨5, 1, 1, 1, 0⟩] := rfl
    rw [hplates, List.map_cons, List.map_nil, hparsed]
    have hwz : withZero (sortEuler [⟨10, 0, 0, 0, 0⟩, ⟨5, 1, 1, 1, 0⟩])
        = [⟨0, 90, 0, 0, 0⟩, ⟨5, 1, 1, 1, 0⟩, ⟨10, 0, 0, 0, 0⟩] := rfl
    rw [normalizePlate_of_strictT _ (by rw [hwz]; decide), hwz]
  obtain ⟨h1, h2, ⟨e, he1, he2⟩, h4⟩ :=
    c6_read_normalized [⟨1, 10, 0, 0, 0, 0⟩, ⟨1, 5, 1, 1, 1, 0⟩]
      [(1, [⟨0, 90, 0, 0, 0⟩, ⟨5, 1, 1, 1, 0⟩, ⟨10, 0, 0, 0, 0⟩])]
      (by decide) hread 1 [⟨0, 90, 0, 0, 0⟩, ⟨5, 1, 1, 1, 0⟩, ⟨10, 0, 0, 0, 0⟩]
      (List.mem_singleton.mpr rfl)
  refine ⟨h1, h2, ?_, h4 (by decide)⟩
  rw [he1]
  simp [he2]

/-- C1: the degree/radian defect, evaluated at the center of pixel 0 of
the equator-360 pixelation (the north pole, built as `NewPoint(90, −180)`
with ring step 1).  The `Latitude` accessor returns π/2 — not the degree
coordinate 90 the claim asserts — so the round-trip lookup
`Pixel(center.Latitude(), center.Longitude())` computes tentative ring 88
and scans rings 87..90, while pixel 0 lives in ring 0, which is the ring
the lookup would target had the accessor returned degrees. -/
theorem c1_radian_accessor :
    latitude (newPoint 90 (-180)) = Real.pi / 2 ∧
    latitude (newPoint 90 (-180)) ≠ 90 ∧
    tentativeRing 1 (latitude (newPoint 90 (-180))) = 88 ∧
    tentativeRing 1 90 = 0 := by
  have hpi_lt : Real.pi < 3.15 := Real.pi_lt_315
  have hpi_gt : Real.pi > 3.14 := Real.pi_gt_314
  have hlat : latitude (newPoint 90 (-180)) = Real.pi / 2 := by
    show toRad 90 = Real.pi / 2
    unfold toRad
    ring
  refine ⟨hlat, ?_, ?_, ?_⟩
  · rw [hlat]
    intro hc
    nlinarith
  · rw [hlat]
    unfold tentativeRing goRoundR
    rw [if_neg (by nlinarith)]
    have h1 : (88 : ℤ) ≤ (90 - Real.pi / 2) / 1 + 1 / 2 := by
      push_cast
      nlinarith
    have h2 : (90 - Real.pi / 2) / 1 + 1 / 2 < 88 + 1 := by
      nlinarith
    rw [Int.floor_eq_iff]
    constructor
    · exact_mod_cast h1
    · exact_mod_cast h2
  · unfold tentativeRing goRoundR
    rw [if_neg (by norm_num)]
    rw [Int.floor_eq_iff]
    norm_num

